import Mathlib

/-!
Verification of the `ROdict` protected-mapping type from `collectionsext.py`
(the same class also appears verbatim in `mypython.py`).

Embedding conventions:
* Python string keys are `List Char` (so the `startswith('_')` / `key[1:]`
  manipulations of `_test_under` are direct list operations).
* Python dicts are insertion-ordered association lists; `alist_set` models
  `d[k] = v` (update in place keeps the position, a new key is appended) and
  `dictUpdate` models `dict.update` / the `|` merge.
* The Python `set` `_protected` is a duplicate-free list used as a set
  (`pset_add` models `set.add`, `pset_discard` models `set.discard`).
* Values are `PyVal`: enough structure to express the duck-typed
  `hasattr(val, 'copy')` / `callable(val.copy)` checks of `_val_copy`.
  A `copyable` value carries an address so that the result of `copy()` is a
  distinguishable fresh object; `pyEq` is Python `==` (address-blind).
* Raised exceptions become `Except ROerror`; each constructor corresponds to
  one `raise` site of the source.
-/

/-- Python keys are strings; we model them as character lists. -/
abbrev Key := List Char

/-- A model of the Python values stored in an `ROdict`, with just enough
structure for the duck-typed copy protocol:
* `pnone` — Python `None` (no `copy` attribute);
* `plain d` — a value with no `copy` attribute (immutable-like);
* `badCopy d` — a value whose `copy` attribute exists but is not callable;
* `copyable d a` — a value with a callable `copy()`; `d` is its data (what
  `==` compares) and `a` its address (so a copy is a distinct object). -/
inductive PyVal : Type where
  | pnone : PyVal
  | plain : Nat → PyVal
  | badCopy : Nat → PyVal
  | copyable : Nat → Nat → PyVal
deriving DecidableEq, Inhabited

/-- `hasattr(val, 'copy')`. -/
def hasCopyAttr : PyVal → Bool
  | .badCopy _ => true
  | .copyable _ _ => true
  | _ => false

/-- `callable(val.copy)`. -/
def copyCallable : PyVal → Bool
  | .copyable _ _ => true
  | _ => false

/-- `val.copy()`: returns an equal object at a fresh address. (Only invoked
on `copyable` values; on others it is a dummy.) -/
def callCopy : PyVal → PyVal
  | .copyable d a => .copyable d (a + 1)
  | v => v

/-- `ROdict._val_copy`, exactly as in the source:
`if hasattr(val, 'copy'): if callable(val.copy): return val.copy()`
(falling through to an implicit `return None` when the attribute is not
callable) `else: return val`. -/
def val_copy (v : PyVal) : PyVal :=
  if hasCopyAttr v then
    if copyCallable v then callCopy v else PyVal.pnone
  else v

/-- Python `==` on our values: compares data, ignores addresses. -/
def pyEq : PyVal → PyVal → Bool
  | .pnone, .pnone => true
  | .plain d, .plain e => d == e
  | .badCopy d, .badCopy e => d == e
  | .copyable d _, .copyable e _ => d == e
  | _, _ => false

/-- `key.startswith('_')`. -/
def startsU : Key → Bool
  | c :: _ => c == '_'
  | [] => false

/-- `ROdict._test_under`: strip one `'_'`, and a second one if present;
`some (baseKey, dbl)` for under-mode, `none` for normal mode. -/
def testUnder (key : Key) : Option (Key × Bool) :=
  if startsU key then
    let k1 := key.tail
    if startsU k1 then some (k1.tail, true) else some (k1, false)
  else none

/-! ### Association lists: Python dict semantics -/

abbrev KVList := List (Key × PyVal)

/-- `k in d`. -/
def alist_hasKey : KVList → Key → Bool
  | [], _ => false
  | p :: t, k => p.1 = k || alist_hasKey t k

/-- `d[k]` as an option. -/
def alist_get : KVList → Key → Option PyVal
  | [], _ => none
  | p :: t, k => if p.1 = k then some p.2 else alist_get t k

/-- `d[k] = v`: replace in place (a dict holds each key once, so replacing the
first occurrence is dict assignment), keeping the key's position; a new key is
appended. -/
def alist_set : KVList → Key → PyVal → KVList
  | [], k, v => [(k, v)]
  | p :: t, k, v => if p.1 = k then (k, v) :: t else p :: alist_set t k v

/-- `del d[k]`. -/
def alist_del (l : KVList) (k : Key) : KVList :=
  l.filter (fun p => ¬ p.1 = k)

/-- `d.update(m)` (also the `|` merge): fold `alist_set` over `m`. -/
def dictUpdate (d m : KVList) : KVList :=
  m.foldl (fun d p => alist_set d p.1 p.2) d

/-! ### The protected set -/

/-- `set.add`. -/
def pset_add (p : List Key) (k : Key) : List Key :=
  if k ∈ p then p else p ++ [k]

/-- `set.discard`. -/
def pset_discard (p : List Key) (k : Key) : List Key :=
  p.filter (fun x => ¬ x = k)

/-! ### The `ROdict` state and its operations -/

/-- The state of an `ROdict`: `self._dict` and `self._protected`. -/
structure ROdict where
  _dict : KVList
  _protected : List Key
deriving DecidableEq

/-- The error taxonomy; one constructor per `raise` site. -/
inductive ROerror : Type where
  | keyNotFound : Key → ROerror
  | readOnly : Key → ROerror
  | additionNotAllowed : ROerror
  | deletionNotAllowed : ROerror
deriving DecidableEq

instance {e a : Type} [DecidableEq e] [DecidableEq a] : DecidableEq (Except e a) :=
  fun x y =>
  match x, y with
  | Except.ok u, Except.ok w =>
      if h : u = w then Decidable.isTrue (h ▸ rfl)
      else Decidable.isFalse (fun hc => h (Except.ok.inj hc))
  | Except.error u, Except.error w =>
      if h : u = w then Decidable.isTrue (h ▸ rfl)
      else Decidable.isFalse (fun hc => h (Except.error.inj hc))
  | Except.ok _, Except.error _ => Decidable.isFalse (fun hc => Except.noConfusion hc)
  | Except.error _, Except.ok _ => Decidable.isFalse (fun hc => Except.noConfusion hc)

/-- `ROdict._item_change_existing_as_under` (also the body used by
`_item_add_new_as_under`, which delegates to it): store `_val_copy(val)` and
set the protection flag to `dbl`. -/
def itemChangeExistingAsUnder (s : ROdict) (k : Key) (v : PyVal) (dbl : Bool) : ROdict :=
  { _dict := alist_set s._dict k (val_copy v),
    _protected := if dbl then pset_add s._protected k else pset_discard s._protected k }

/-- `ROdict.__getitem__`. -/
def getitem (s : ROdict) (key : Key) : Except ROerror PyVal :=
  match testUnder key with
  | some (k, _) =>
      match alist_get s._dict k with
      | some v => Except.ok v
      | none => Except.error (ROerror.keyNotFound k)
  | none =>
      match alist_get s._dict key with
      | some v => Except.ok (val_copy v)
      | none => Except.error (ROerror.keyNotFound key)

/-- `ROdict.__setitem__`. In under-mode both branches (existing and new key)
perform `_item_change_existing_as_under`, since `_item_add_new_as_under`
delegates to it. -/
def setitem (s : ROdict) (key : Key) (v : PyVal) : Except ROerror ROdict :=
  match testUnder key with
  | some (k, dbl) => Except.ok (itemChangeExistingAsUnder s k v dbl)
  | none =>
      if alist_hasKey s._dict key then
        if key ∈ s._protected then Except.error (ROerror.readOnly key)
        else Except.ok { s with _dict := alist_set s._dict key (val_copy v) }
      else Except.error ROerror.additionNotAllowed

/-- `ROdict.__delitem__`. -/
def delitem (s : ROdict) (key : Key) : Except ROerror ROdict :=
  match testUnder key with
  | some (k, _) =>
      if alist_hasKey s._dict k then
        Except.ok { _dict := alist_del s._dict k,
                    _protected := pset_discard s._protected k }
      else Except.error (ROerror.keyNotFound k)
  | none =>
      if alist_hasKey s._dict key then Except.error ROerror.deletionNotAllowed
      else Except.error (ROerror.keyNotFound key)

/-- Post-state of a write: the new state on success, the unchanged state when
the operation raised. -/
def setPost (s : ROdict) (key : Key) (v : PyVal) : ROdict :=
  match setitem s key v with
  | Except.ok t => t
  | Except.error _ => s

/-- Post-state of a delete. -/
def delPost (s : ROdict) (key : Key) : ROdict :=
  match delitem s key with
  | Except.ok t => t
  | Except.error _ => s

/-- `ROdict.__len__`. -/
def ROdict.len (s : ROdict) : Nat := s._dict.length

/-- `ROdict.__iter__`: the keys in insertion order. -/
def ROdict.keys (s : ROdict) : List Key := s._dict.map (·.1)

/-! ### Construction -/

/-- A construction source: a generic mapping or another `ROdict`. -/
inductive Source : Type where
  | mapping : KVList → Source
  | rodict : ROdict → Source

/-- `'__' + k`. -/
def dblKey (k : Key) : Key := '_' :: '_' :: k

/-- The first comprehension of `ROdict.__to_initdict`:
`{'__' + k: v for k, v in obj._dict.items() if k in obj._protected}`. -/
def protPart (r : ROdict) : KVList :=
  (r._dict.filter (fun p => p.1 ∈ r._protected)).map (fun p => (dblKey p.1, p.2))

/-- The second comprehension of `ROdict.__to_initdict`:
`{k: v for k, v in obj._dict.items() if k not in obj._protected}`. -/
def unprotPart (r : ROdict) : KVList :=
  r._dict.filter (fun p => p.1 ∉ r._protected)

/-- `ROdict.__to_initdict`: an `ROdict` source is expanded into
`protPart | unprotPart` (the `|` dict merge); a generic mapping is taken as
`dict(obj)` (a comprehension over a dict is the update of the empty dict). -/
def toInitdict : Source → KVList
  | Source.mapping m => dictUpdate [] m
  | Source.rodict r => dictUpdate (dictUpdate [] (protPart r)) (unprotPart r)

/-- One step of the `__init__` insertion loop: under-keys go through
`_item_add_new_as_under` (which delegates to `_item_change_existing_as_under`),
normal keys through `_item_add_new_as_normal` with `init=True` (a plain
copying store). -/
def initStep (s : ROdict) (p : Key × PyVal) : ROdict :=
  match testUnder p.1 with
  | some (k, dbl) => itemChangeExistingAsUnder s k p.2 dbl
  | none => { s with _dict := alist_set s._dict p.1 (val_copy p.2) }

/-- The `__init__` insertion loop over a fully merged init dict. -/
def initFromDict (l : KVList) : ROdict :=
  l.foldl initStep { _dict := [], _protected := [] }

/-- `ROdict.__init__(*args, **kwargs)`: merge all sources left to right, then
the keyword overrides, then run the insertion loop. -/
def ROdict.make (args : List Source) (kwargs : KVList) : ROdict :=
  initFromDict (dictUpdate (args.foldl (fun d a => dictUpdate d (toInitdict a)) []) kwargs)

/-- `ROdict.copy`: construct a new instance from `self` as the sole source. -/
def ROdict.clone (s : ROdict) : ROdict :=
  ROdict.make [Source.rodict s] []

/-- The `for k in self.keys(): d[k] = self[k]` loop of `dict(self)`,
raising at the first failing key. -/
def plainGo (s : ROdict) : KVList → Except ROerror KVList
  | [] => Except.ok []
  | p :: rest =>
      match getitem s p.1 with
      | Except.ok v =>
          match plainGo s rest with
          | Except.ok r => Except.ok ((p.1, v) :: r)
          | Except.error e => Except.error e
      | Except.error e => Except.error e

/-- `ROdict.dict()`: a plain dict built by reading every key normally. -/
def toPlainMapping (s : ROdict) : Except ROerror KVList :=
  plainGo s s._dict

/-! ### Invariants of reachable states -/

/-- Keys in `_protected` are keys of `_dict` (the spec's §3 invariant). -/
def SubsetInv (s : ROdict) : Prop :=
  ∀ k ∈ s._protected, k ∈ s._dict.map (·.1)

/-- The full reachability invariant: `_dict` keys are distinct, the protected
set is a subset of them, an unprotected key never starts with `'_'` (the key
protocol cannot create one), and every stored value is `_val_copy`-stable
(stored values are images of `_val_copy`). -/
def RInv (s : ROdict) : Prop :=
  (s._dict.map (·.1)).Nodup ∧
  SubsetInv s ∧
  (∀ p ∈ s._dict, p.1 ∉ s._protected → startsU p.1 = false) ∧
  (∀ p ∈ s._dict, pyEq (val_copy p.2) p.2 = true)

instance : DecidablePred SubsetInv := fun s => by
  unfold SubsetInv
  infer_instance

instance : DecidablePred RInv := fun s => by
  unfold RInv
  infer_instance


/-- The base key an insertion-loop entry ends up under: the stripped key for
an under-key, the raw key itself for a normal key. -/
def parsedBase (raw : Key) : Key :=
  match testUnder raw with
  | some (k, _) => k
  | none => raw

/-- Whether an insertion-loop entry sets the protected flag. -/
def parsedDbl (raw : Key) : Bool :=
  match testUnder raw with
  | some (_, d) => d
  | none => false

/-- Python `==` on optional lookup results (both absent counts as equal). -/
def optPyEq : Option PyVal → Option PyVal → Prop
  | some a, some b => pyEq a b = true
  | none, none => True
  | _, _ => False

/-! ### Sample states (used to instantiate the general theorems) -/

/-- `ROdict(__a=1, b=2)`: one protected and one unprotected entry. -/
def sampleProt : ROdict :=
  ROdict.make [] [(dblKey ['a'], PyVal.plain 1), (['b'], PyVal.plain 2)]

/-- A state with interleaved protected/unprotected insertion order and a
copyable value. -/
def sampleMix : ROdict :=
  ROdict.make [] [(['b'], PyVal.copyable 2 0), (dblKey ['a'], PyVal.plain 1),
    (['c'], PyVal.plain 3), (dblKey ['d'], PyVal.copyable 4 7)]

/-! ### Basic lemmas about values and key parsing -/

theorem pyEq_val_copy_twice (v : PyVal) :
    pyEq (val_copy (val_copy v)) (val_copy v) = true := by
  cases v <;> simp [val_copy, hasCopyAttr, copyCallable, callCopy, pyEq]

theorem startsU_underCons (t : Key) : startsU ('_' :: t) = true := rfl

theorem testUnder_dblKey (k : Key) : testUnder (dblKey k) = some (k, true) := rfl

theorem testUnder_single (k : Key) (h : startsU k = false) :
    testUnder ('_' :: k) = some (k, false) := by
  simp [testUnder, startsU_underCons, h]

theorem testUnder_normal (k : Key) (h : startsU k = false) : testUnder k = none := by
  simp [testUnder, h]

theorem startsU_of_single (key k : Key)
    (h : testUnder key = some (k, false)) : startsU k = false := by
  unfold testUnder at h
  cases hs : startsU key with
  | false => simp [hs] at h
  | true =>
      cases h2 : startsU key.tail with
      | true => simp [hs, h2] at h
      | false =>
          simp [hs, h2] at h
          exact h ▸ h2

/-! ### Association-list lemmas -/

theorem alist_hasKey_eq_isSome (l : KVList) (k : Key) :
    alist_hasKey l k = (alist_get l k).isSome := by
  induction l with
  | nil => rfl
  | cons p t ih =>
      by_cases h : p.1 = k <;> simp [alist_hasKey, alist_get, h, ih]

theorem alist_hasKey_iff_mem (l : KVList) (k : Key) :
    alist_hasKey l k = true ↔ k ∈ l.map (·.1) := by
  induction l with
  | nil => simp [alist_hasKey]
  | cons p t ih =>
      simp only [alist_hasKey, List.map_cons, List.mem_cons, Bool.or_eq_true,
        decide_eq_true_eq]
      rw [ih]
      constructor
      · rintro (h | h)
        · exact Or.inl h.symm
        · exact Or.inr h
      · rintro (h | h)
        · exact Or.inl h.symm
        · exact Or.inr h

theorem alist_get_isSome_iff (l : KVList) (k : Key) :
    (alist_get l k).isSome = true ↔ k ∈ l.map (·.1) := by
  rw [← alist_hasKey_eq_isSome]
  exact alist_hasKey_iff_mem l k

theorem mem_of_alist_get_some (l : KVList) (k : Key) (v : PyVal)
    (h : alist_get l k = some v) : (k, v) ∈ l := by
  induction l with
  | nil => simp [alist_get] at h
  | cons p t ih =>
      obtain ⟨a, b⟩ := p
      by_cases hp : a = k
      · subst hp
        simp [alist_get] at h
        subst h
        exact List.mem_cons_self _ _
      · simp [alist_get, hp] at h
        exact List.mem_cons_of_mem _ (ih h)

theorem alist_get_set_self (l : KVList) (k : Key) (v : PyVal) :
    alist_get (alist_set l k v) k = some v := by
  induction l with
  | nil => simp [alist_set, alist_get]
  | cons p t ih =>
      obtain ⟨a, b⟩ := p
      by_cases h : a = k
      · subst h
        simp [alist_set, alist_get]
      · simp [alist_set, alist_get, h, ih]

theorem alist_get_set_ne (l : KVList) (k j : Key) (v : PyVal) (hjk : j ≠ k) :
    alist_get (alist_set l k v) j = alist_get l j := by
  have hkj : ¬ k = j := fun h => hjk h.symm
  induction l with
  | nil => simp [alist_set, alist_get, hkj]
  | cons p t ih =>
      obtain ⟨a, b⟩ := p
      by_cases h : a = k
      · subst h
        simp [alist_set, alist_get, hkj]
      · simp [alist_set, alist_get, h, ih]

theorem alist_set_of_not_hasKey (l : KVList) (k : Key) (v : PyVal)
    (h : alist_hasKey l k = false) : alist_set l k v = l ++ [(k, v)] := by
  induction l with
  | nil => rfl
  | cons p t ih =>
      simp only [alist_hasKey, Bool.or_eq_false_iff, decide_eq_false_iff_not] at h
      simp [alist_set, h.1, ih h.2]

theorem alist_set_keys_of_hasKey (l : KVList) (k : Key) (v : PyVal)
    (h : alist_hasKey l k = true) :
    (alist_set l k v).map (·.1) = l.map (·.1) := by
  induction l with
  | nil => simp [alist_hasKey] at h
  | cons p t ih =>
      obtain ⟨a, b⟩ := p
      by_cases hp : a = k
      · subst hp
        simp [alist_set]
      · simp only [alist_hasKey, Bool.or_eq_true, decide_eq_true_eq] at h
        rcases h with h | h
        · exact absurd h hp
        · simp [alist_set, hp, ih h]

theorem alist_del_cons (a : Key) (b : PyVal) (t : KVList) (k : Key) :
    alist_del ((a, b) :: t) k =
      if a = k then alist_del t k else (a, b) :: alist_del t k := by
  simp only [alist_del, List.filter_cons]
  by_cases h : a = k <;> simp [h]

theorem alist_get_del_self (l : KVList) (k : Key) :
    alist_get (alist_del l k) k = none := by
  induction l with
  | nil => rfl
  | cons p t ih =>
      obtain ⟨a, b⟩ := p
      rw [alist_del_cons]
      by_cases h : a = k
      · rw [if_pos h]
        exact ih
      · rw [if_neg h]
        simpa [alist_get, h] using ih

theorem alist_get_del_ne (l : KVList) (k j : Key) (hjk : j ≠ k) :
    alist_get (alist_del l k) j = alist_get l j := by
  induction l with
  | nil => rfl
  | cons p t ih =>
      obtain ⟨a, b⟩ := p
      rw [alist_del_cons]
      by_cases h : a = k
      · have haj : ¬ a = j := fun hc => hjk ((hc.symm.trans h : j = k))
        rw [if_pos h]
        simpa [alist_get, haj] using ih
      · rw [if_neg h]
        by_cases hj : a = j <;> simp [alist_get, hj, ih]

theorem alist_del_keys (l : KVList) (k j : Key) :
    j ∈ (alist_del l k).map (·.1) ↔ j ∈ l.map (·.1) ∧ j ≠ k := by
  induction l with
  | nil => simp [alist_del]
  | cons p t ih =>
      obtain ⟨a, b⟩ := p
      rw [alist_del_cons]
      by_cases h : a = k
      · rw [if_pos h, ih]
        simp only [List.map_cons, List.mem_cons]
        constructor
        · rintro ⟨hm, hne⟩
          exact ⟨Or.inr hm, hne⟩
        · rintro ⟨hm | hm, hne⟩
          · exact absurd (hm.trans h) hne
          · exact ⟨hm, hne⟩
      · rw [if_neg h]
        simp only [List.map_cons, List.mem_cons]
        rw [ih]
        constructor
        · rintro (rfl | ⟨hm, hne⟩)
          · exact ⟨Or.inl rfl, fun hc => h (hc ▸ rfl)⟩
          · exact ⟨Or.inr hm, hne⟩
        · rintro ⟨hm | hm, hne⟩
          · exact Or.inl hm
          · exact Or.inr ⟨hm, hne⟩

/-! ### Protected-set lemmas -/

theorem mem_pset_add (p : List Key) (k j : Key) :
    j ∈ pset_add p k ↔ j = k ∨ j ∈ p := by
  unfold pset_add
  by_cases h : k ∈ p
  · simp only [h, if_true]
    constructor
    · exact Or.inr
    · rintro (rfl | hj)
      · exact h
      · exact hj
  · simp [h, List.mem_append, or_comm]

theorem mem_pset_discard (p : List Key) (k j : Key) :
    j ∈ pset_discard p k ↔ j ∈ p ∧ j ≠ k := by
  simp [pset_discard, List.mem_filter]

theorem pset_add_fresh (p : List Key) (k : Key) (h : k ∉ p) :
    pset_add p k = p ++ [k] := by
  simp [pset_add, h]

theorem pset_discard_fresh (p : List Key) (k : Key) (h : k ∉ p) :
    pset_discard p k = p := by
  unfold pset_discard
  rw [List.filter_eq_self]
  intro x hx
  simpa using fun he : x = k => h (he ▸ hx)

/-! ### State-operation lemmas -/

theorem alist_set_keys_mem (l : KVList) (k j : Key) (v : PyVal)
    (h : j = k ∨ j ∈ l.map (·.1)) : j ∈ (alist_set l k v).map (·.1) := by
  by_cases hk : alist_hasKey l k
  · rw [alist_set_keys_of_hasKey l k v hk]
    rcases h with rfl | h
    · exact (alist_hasKey_iff_mem l j).1 hk
    · exact h
  · rw [alist_set_of_not_hasKey l k v (by simpa using hk)]
    rcases h with rfl | h
    · simp
    · simp [h]

theorem initStep_subset (s : ROdict) (p : Key × PyVal) (h : SubsetInv s) :
    SubsetInv (initStep s p) := by
  unfold initStep
  cases ht : testUnder p.1 with
  | none =>
      intro j hj
      exact alist_set_keys_mem _ _ _ _ (Or.inr (h j hj))
  | some kd =>
      obtain ⟨k, dbl⟩ := kd
      unfold itemChangeExistingAsUnder
      cases dbl with
      | true =>
          intro j hj
          simp only [if_true] at hj
          rcases (mem_pset_add _ _ _).1 hj with rfl | hj
          · exact alist_set_keys_mem _ _ _ _ (Or.inl rfl)
          · exact alist_set_keys_mem _ _ _ _ (Or.inr (h j hj))
      | false =>
          intro j hj
          simp only [if_false] at hj
          exact alist_set_keys_mem _ _ _ _ (Or.inr (h j ((mem_pset_discard _ _ _).1 hj).1))

theorem subsetInv_foldl (l : KVList) (s : ROdict) (h : SubsetInv s) :
    SubsetInv (l.foldl initStep s) := by
  induction l generalizing s with
  | nil => exact h
  | cons p t ih => exact ih _ (initStep_subset s p h)

theorem subsetInv_initFromDict (l : KVList) : SubsetInv (initFromDict l) := by
  apply subsetInv_foldl
  intro j hj
  simp at hj

theorem setitem_ok_subset (s : ROdict) (key : Key) (v : PyVal) (t : ROdict)
    (h : SubsetInv s) (hok : setitem s key v = Except.ok t) : SubsetInv t := by
  unfold setitem at hok
  cases ht : testUnder key with
  | some kd =>
      obtain ⟨k, dbl⟩ := kd
      rw [ht] at hok
      injection hok with hok
      subst hok
      have := initStep_subset s (key, v) h
      unfold initStep at this
      rw [ht] at this
      exact this
  | none =>
      rw [ht] at hok
      by_cases hk : alist_hasKey s._dict key
      · by_cases hp : key ∈ s._protected
        · simp [hk, hp] at hok
        · simp [hk, hp] at hok
          subst hok
          intro j hj
          exact alist_set_keys_mem _ _ _ _ (Or.inr (h j hj))
      · simp [hk] at hok

theorem delitem_ok_subset (s : ROdict) (key : Key) (t : ROdict)
    (h : SubsetInv s) (hok : delitem s key = Except.ok t) : SubsetInv t := by
  unfold delitem at hok
  cases ht : testUnder key with
  | some kd =>
      obtain ⟨k, dbl⟩ := kd
      rw [ht] at hok
      by_cases hk : alist_hasKey s._dict k
      · simp [hk] at hok
        subst hok
        intro j hj
        rcases (mem_pset_discard _ _ _).1 hj with ⟨hjp, hne⟩
        exact (alist_del_keys _ _ _).2 ⟨h j hjp, hne⟩
      · simp [hk] at hok
  | none =>
      rw [ht] at hok
      by_cases hk : alist_hasKey s._dict key <;> simp [hk] at hok

/-! ### Claim theorems -/

/-- C1: the spec's copy-on-write/copy-on-read policy says that a value whose
copy operation is not callable is stored/returned unchanged, never a `None`
substitute.  The code's `_val_copy` contradicts this: for a value that has a
`copy` attribute which is not callable, it falls through both branches and
implicitly returns `None`, so construction stores `None` in place of the
value.  (The spec itself flags this as a latent bug in §9.) -/
theorem C1_val_copy_stores_none :
    hasCopyAttr (PyVal.badCopy 0) = true ∧
    copyCallable (PyVal.badCopy 0) = false ∧
    val_copy (PyVal.badCopy 0) = PyVal.pnone ∧
    PyVal.badCopy 0 ≠ PyVal.pnone ∧
    alist_get (ROdict.make [] [(['a'], PyVal.badCopy 0)])._dict ['a'] =
      some PyVal.pnone := by
  refine ⟨rfl, rfl, rfl, by decide, ?_⟩
  decide

/-- C3: a normal-mode write to a present, protected base key fails with the
`ReadOnly` error (`KeyError "... is read-only"`) and leaves the state — in
particular the stored value for that key — unchanged. -/
theorem C3_normal_write_protected_fails (s : ROdict) (k : Key) (v : PyVal)
    (hmode : testUnder k = none)
    (hmem : alist_hasKey s._dict k = true)
    (hprot : k ∈ s._protected) :
    setitem s k v = Except.error (ROerror.readOnly k) ∧ setPost s k v = s := by
  have h1 : setitem s k v = Except.error (ROerror.readOnly k) := by
    simp [setitem, hmode, hmem, hprot]
  exact ⟨h1, by simp [setPost, h1]⟩

theorem C3_witness :
    testUnder ['a'] = none ∧
    alist_hasKey sampleProt._dict ['a'] = true ∧
    ['a'] ∈ sampleProt._protected ∧
    (setitem sampleProt ['a'] (PyVal.plain 9) =
        Except.error (ROerror.readOnly ['a']) ∧
      setPost sampleProt ['a'] (PyVal.plain 9) = sampleProt) :=
  ⟨by decide, by decide, by decide,
    C3_normal_write_protected_fails sampleProt ['a'] (PyVal.plain 9)
      (by decide) (by decide) (by decide)⟩

/-- C5: a normal-mode write to an absent base key fails with
`AdditionNotAllowed` and changes nothing (the length included); moreover a
normal-mode write can only succeed on an existing unprotected key and never
changes the key list. -/
theorem C5_normal_write_absent_fails (s : ROdict) (k : Key) (v : PyVal)
    (hmode : testUnder k = none)
    (habs : alist_hasKey s._dict k = false) :
    setitem s k v = Except.error ROerror.additionNotAllowed ∧
    setPost s k v = s ∧
    ROdict.len (setPost s k v) = ROdict.len s ∧
    (∀ (key : Key) (w : PyVal) (t : ROdict), testUnder key = none →
      setitem s key w = Except.ok t →
      alist_hasKey s._dict key = true ∧ key ∉ s._protected ∧ t.keys = s.keys) := by
  have h1 : setitem s k v = Except.error ROerror.additionNotAllowed := by
    simp [setitem, hmode, habs]
  have h2 : setPost s k v = s := by simp [setPost, h1]
  refine ⟨h1, h2, by rw [h2], ?_⟩
  intro key w t hm hok
  unfold setitem at hok
  rw [hm] at hok
  by_cases hk : alist_hasKey s._dict key
  · by_cases hp : key ∈ s._protected
    · simp [hk, hp] at hok
    · simp [hk, hp] at hok
      subst hok
      exact ⟨hk, hp, by
        simp only [ROdict.keys]
        exact alist_set_keys_of_hasKey _ _ _ hk⟩
  · simp [hk] at hok

theorem C5_witness :
    testUnder ['z'] = none ∧
    alist_hasKey sampleProt._dict ['z'] = false ∧
    (setitem sampleProt ['z'] (PyVal.plain 9) =
        Except.error ROerror.additionNotAllowed ∧
      setPost sampleProt ['z'] (PyVal.plain 9) = sampleProt ∧
      ROdict.len (setPost sampleProt ['z'] (PyVal.plain 9)) = ROdict.len sampleProt ∧
      (∀ (key : Key) (w : PyVal) (t : ROdict), testUnder key = none →
        setitem sampleProt key w = Except.ok t →
        alist_hasKey sampleProt._dict key = true ∧ key ∉ sampleProt._protected ∧
          t.keys = sampleProt.keys)) :=
  ⟨by decide, by decide,
    C5_normal_write_absent_fails sampleProt ['z'] (PyVal.plain 9)
      (by decide) (by decide)⟩

/-- C6: a normal-mode delete of any existing base key — protected or not —
fails with `DeletionNotAllowed` and leaves the state intact. -/
theorem C6_normal_delete_fails (s : ROdict) (k : Key)
    (hmode : testUnder k = none)
    (hmem : alist_hasKey s._dict k = true) :
    delitem s k = Except.error ROerror.deletionNotAllowed ∧ delPost s k = s := by
  have h1 : delitem s k = Except.error ROerror.deletionNotAllowed := by
    simp [delitem, hmode, hmem]
  exact ⟨h1, by simp [delPost, h1]⟩

theorem C6_witness :
    (testUnder ['a'] = none ∧ alist_hasKey sampleProt._dict ['a'] = true ∧
      delitem sampleProt ['a'] = Except.error ROerror.deletionNotAllowed ∧
      delPost sampleProt ['a'] = sampleProt) ∧
    (testUnder ['b'] = none ∧ alist_hasKey sampleProt._dict ['b'] = true ∧
      delitem sampleProt ['b'] = Except.error ROerror.deletionNotAllowed ∧
      delPost sampleProt ['b'] = sampleProt) := by
  refine ⟨⟨by decide, by decide, ?_⟩, ⟨by decide, by decide, ?_⟩⟩
  · exact C6_normal_delete_fails sampleProt ['a'] (by decide) (by decide)
  · exact C6_normal_delete_fails sampleProt ['b'] (by decide) (by decide)

/-- C7: an under-mode delete (`'_' + k`) of any existing base key succeeds
unconditionally (protected or not), removes the key from both the entries and
the protected set, and a subsequent normal `get(k)` fails with `KeyNotFound`. -/
theorem C7_under_delete_succeeds (s : ROdict) (k : Key)
    (hk : startsU k = false)
    (hmem : alist_hasKey s._dict k = true) :
    delitem s ('_' :: k) = Except.ok
      { _dict := alist_del s._dict k, _protected := pset_discard s._protected k } ∧
    alist_hasKey (delPost s ('_' :: k))._dict k = false ∧
    k ∉ (delPost s ('_' :: k))._protected ∧
    getitem (delPost s ('_' :: k)) k = Except.error (ROerror.keyNotFound k) := by
  have h1 : delitem s ('_' :: k) = Except.ok
      { _dict := alist_del s._dict k, _protected := pset_discard s._protected k } := by
    simp [delitem, testUnder_single k hk, hmem]
  have h2 : delPost s ('_' :: k) =
      { _dict := alist_del s._dict k, _protected := pset_discard s._protected k } := by
    simp [delPost, h1]
  refine ⟨h1, ?_, ?_, ?_⟩
  · rw [h2, alist_hasKey_eq_isSome]
    simp [alist_get_del_self]
  · rw [h2]
    intro hmemp
    exact ((mem_pset_discard _ _ _).1 hmemp).2 rfl
  · rw [h2]
    simp [getitem, testUnder_normal k hk, alist_get_del_self]

theorem C7_witness :
    startsU ['a'] = false ∧ alist_hasKey sampleProt._dict ['a'] = true ∧
    (delitem sampleProt ('_' :: ['a']) = Except.ok
       { _dict := alist_del sampleProt._dict ['a'],
         _protected := pset_discard sampleProt._protected ['a'] } ∧
     alist_hasKey (delPost sampleProt ('_' :: ['a']))._dict ['a'] = false ∧
     ['a'] ∉ (delPost sampleProt ('_' :: ['a']))._protected ∧
     getitem (delPost sampleProt ('_' :: ['a'])) ['a'] =
       Except.error (ROerror.keyNotFound ['a'])) :=
  ⟨by decide, by decide,
    C7_under_delete_succeeds sampleProt ['a'] (by decide) (by decide)⟩

/-- C10: for an existing base key the `dbl` flag is irrelevant to under-mode
reads and deletes: `get('__'+k)` and `get('_'+k)` both return exactly the raw
stored value (no copy), and `delete('__'+k)` removes the entry entirely,
exactly as `delete('_'+k)` does. -/
theorem C10_dbl_irrelevant_read_delete (s : ROdict) (k : Key) (v : PyVal)
    (hk : startsU k = false)
    (hget : alist_get s._dict k = some v) :
    getitem s (dblKey k) = Except.ok v ∧
    getitem s ('_' :: k) = Except.ok v ∧
    delitem s (dblKey k) = delitem s ('_' :: k) ∧
    delitem s (dblKey k) = Except.ok
      { _dict := alist_del s._dict k, _protected := pset_discard s._protected k } ∧
    alist_hasKey (delPost s (dblKey k))._dict k = false := by
  have hmem : alist_hasKey s._dict k = true := by
    rw [alist_hasKey_eq_isSome, hget]
    rfl
  have hd : delitem s (dblKey k) = Except.ok
      { _dict := alist_del s._dict k, _protected := pset_discard s._protected k } := by
    simp [delitem, testUnder_dblKey, hmem]
  refine ⟨?_, ?_, ?_, hd, ?_⟩
  · simp [getitem, testUnder_dblKey, hget]
  · simp [getitem, testUnder_single k hk, hget]
  · rw [hd]
    simp [delitem, testUnder_single k hk, hmem]
  · simp [delPost, hd, alist_hasKey_eq_isSome, alist_get_del_self]

theorem C10_witness :
    startsU ['a'] = false ∧ alist_get sampleProt._dict ['a'] = some (PyVal.plain 1) ∧
    (getitem sampleProt (dblKey ['a']) = Except.ok (PyVal.plain 1) ∧
     getitem sampleProt ('_' :: ['a']) = Except.ok (PyVal.plain 1) ∧
     delitem sampleProt (dblKey ['a']) = delitem sampleProt ('_' :: ['a']) ∧
     delitem sampleProt (dblKey ['a']) = Except.ok
       { _dict := alist_del sampleProt._dict ['a'],
         _protected := pset_discard sampleProt._protected ['a'] } ∧
     alist_hasKey (delPost sampleProt (dblKey ['a']))._dict ['a'] = false) :=
  ⟨by decide, by decide,
    C10_dbl_irrelevant_read_delete sampleProt ['a'] (PyVal.plain 1)
      (by decide) (by decide)⟩

/-- C4: an under-mode write never fails: for raw key `'_'+k` (with `k` not
itself starting with `'_'`, else the raw key would parse differently) or
`'__'+k2`, the write succeeds, creating or overwriting the entry with the
copied value, and afterward the base key is protected exactly when the raw key
had the double underscore.  Moreover no other operation changes a protection
flag: a successful normal-mode write leaves the protected set unchanged, and a
successful delete leaves the flag of every surviving key unchanged. -/
theorem C4_under_write_always_succeeds (s : ROdict) (k k2 key : Key) (v w : PyVal)
    (hk : startsU k = false) :
    setitem s ('_' :: k) v = Except.ok (setPost s ('_' :: k) v) ∧
    alist_get (setPost s ('_' :: k) v)._dict k = some (val_copy v) ∧
    k ∉ (setPost s ('_' :: k) v)._protected ∧
    (∀ j, j ≠ k → (j ∈ (setPost s ('_' :: k) v)._protected ↔ j ∈ s._protected)) ∧
    setitem s (dblKey k2) v = Except.ok (setPost s (dblKey k2) v) ∧
    alist_get (setPost s (dblKey k2) v)._dict k2 = some (val_copy v) ∧
    k2 ∈ (setPost s (dblKey k2) v)._protected ∧
    (∀ j, j ≠ k2 → (j ∈ (setPost s (dblKey k2) v)._protected ↔ j ∈ s._protected)) ∧
    (testUnder key = none → ∀ t, setitem s key w = Except.ok t →
      t._protected = s._protected) ∧
    (∀ t, delitem s key = Except.ok t → ∀ j, alist_hasKey t._dict j = true →
      (j ∈ t._protected ↔ j ∈ s._protected)) := by
  have e1 : setitem s ('_' :: k) v =
      Except.ok (itemChangeExistingAsUnder s k v false) := by
    simp [setitem, testUnder_single k hk]
  have p1 : setPost s ('_' :: k) v = itemChangeExistingAsUnder s k v false := by
    simp [setPost, e1]
  have e2 : setitem s (dblKey k2) v =
      Except.ok (itemChangeExistingAsUnder s k2 v true) := by
    simp [setitem, testUnder_dblKey]
  have p2 : setPost s (dblKey k2) v = itemChangeExistingAsUnder s k2 v true := by
    simp [setPost, e2]
  refine ⟨by rw [e1, p1], ?_, ?_, ?_, by rw [e2, p2], ?_, ?_, ?_, ?_, ?_⟩
  · simp [p1, itemChangeExistingAsUnder, alist_get_set_self]
  · simp only [p1, itemChangeExistingAsUnder, if_false]
    intro hm
    exact ((mem_pset_discard _ _ _).1 hm).2 rfl
  · intro j hj
    simp only [p1, itemChangeExistingAsUnder]
    exact ⟨fun h => ((mem_pset_discard _ _ _).1 h).1,
      fun h => (mem_pset_discard _ _ _).2 ⟨h, hj⟩⟩
  · simp [p2, itemChangeExistingAsUnder, alist_get_set_self]
  · simp only [p2, itemChangeExistingAsUnder, if_true]
    exact (mem_pset_add _ _ _).2 (Or.inl rfl)
  · intro j hj
    simp only [p2, itemChangeExistingAsUnder]
    constructor
    · intro h
      rcases (mem_pset_add _ _ _).1 h with rfl | h
      · exact absurd rfl hj
      · exact h
    · exact fun h => (mem_pset_add _ _ _).2 (Or.inr h)
  · intro hm t hok
    unfold setitem at hok
    rw [hm] at hok
    by_cases hk2 : alist_hasKey s._dict key
    · by_cases hp : key ∈ s._protected
      · simp [hk2, hp] at hok
      · simp [hk2, hp] at hok
        subst hok
        rfl
    · simp [hk2] at hok
  · intro t hok j hjt
    unfold delitem at hok
    cases ht : testUnder key with
    | some kd =>
        obtain ⟨b, dbl⟩ := kd
        rw [ht] at hok
        by_cases hb : alist_hasKey s._dict b
        · simp [hb] at hok
          subst hok
          simp only at hjt ⊢
          have := (alist_del_keys s._dict b j).1 ((alist_hasKey_iff_mem _ _).1 hjt)
          exact ⟨fun h => ((mem_pset_discard _ _ _).1 h).1,
            fun h => (mem_pset_discard _ _ _).2 ⟨h, this.2⟩⟩
        · simp [hb] at hok
    | none =>
        rw [ht] at hok
        by_cases hb : alist_hasKey s._dict key <;> simp [hb] at hok

theorem C4_witness :
    startsU ['b'] = false ∧
    (setitem sampleProt ('_' :: ['b']) (PyVal.plain 7) =
        Except.ok (setPost sampleProt ('_' :: ['b']) (PyVal.plain 7)) ∧
      alist_get (setPost sampleProt ('_' :: ['b']) (PyVal.plain 7))._dict ['b'] =
        some (val_copy (PyVal.plain 7)) ∧
      ['b'] ∉ (setPost sampleProt ('_' :: ['b']) (PyVal.plain 7))._protected ∧
      (∀ j, j ≠ ['b'] →
        (j ∈ (setPost sampleProt ('_' :: ['b']) (PyVal.plain 7))._protected ↔
          j ∈ sampleProt._protected)) ∧
      setitem sampleProt (dblKey ['z']) (PyVal.plain 7) =
        Except.ok (setPost sampleProt (dblKey ['z']) (PyVal.plain 7)) ∧
      alist_get (setPost sampleProt (dblKey ['z']) (PyVal.plain 7))._dict ['z'] =
        some (val_copy (PyVal.plain 7)) ∧
      ['z'] ∈ (setPost sampleProt (dblKey ['z']) (PyVal.plain 7))._protected ∧
      (∀ j, j ≠ ['z'] →
        (j ∈ (setPost sampleProt (dblKey ['z']) (PyVal.plain 7))._protected ↔
          j ∈ sampleProt._protected)) ∧
      (testUnder ['b'] = none → ∀ t,
        setitem sampleProt ['b'] (PyVal.plain 8) = Except.ok t →
        t._protected = sampleProt._protected) ∧
      (∀ t, delitem sampleProt ['b'] = Except.ok t →
        ∀ j, alist_hasKey t._dict j = true →
          (j ∈ t._protected ↔ j ∈ sampleProt._protected))) :=
  ⟨by decide,
    C4_under_write_always_succeeds sampleProt ['b'] ['z'] ['b']
      (PyVal.plain 7) (PyVal.plain 8) (by decide)⟩

/-- C8: the invariant `protectedKeys ⊆ keys(entries)` holds after any
construction and is preserved by every operation, whether it succeeds or
fails (a failing `set`/`delete` leaves the state unchanged, expressed via the
post-state functions; `get` does not touch the state at all). -/
theorem C8_subset_invariant :
    (∀ (args : List Source) (kwargs : KVList), SubsetInv (ROdict.make args kwargs)) ∧
    (∀ s key v t, SubsetInv s → setitem s key v = Except.ok t → SubsetInv t) ∧
    (∀ s key v, SubsetInv s → SubsetInv (setPost s key v)) ∧
    (∀ s key t, SubsetInv s → delitem s key = Except.ok t → SubsetInv t) ∧
    (∀ s key, SubsetInv s → SubsetInv (delPost s key)) := by
  refine ⟨?_, setitem_ok_subset, ?_, delitem_ok_subset, ?_⟩
  · intro args kwargs
    exact subsetInv_initFromDict _
  · intro s key v h
    unfold setPost
    cases hok : setitem s key v with
    | ok t => exact setitem_ok_subset s key v t h hok
    | error e => exact h
  · intro s key h
    unfold delPost
    cases hok : delitem s key with
    | ok t => exact delitem_ok_subset s key t h hok
    | error e => exact h

theorem C8_witness :
    SubsetInv sampleProt ∧
    SubsetInv (setPost sampleProt ['b'] (PyVal.plain 7)) ∧
    SubsetInv (delPost sampleProt ('_' :: ['a'])) :=
  ⟨C8_subset_invariant.1 [] [(dblKey ['a'], PyVal.plain 1), (['b'], PyVal.plain 2)],
   C8_subset_invariant.2.2.1 sampleProt ['b'] (PyVal.plain 7) (by decide),
   C8_subset_invariant.2.2.2.2 sampleProt ('_' :: ['a']) (by decide)⟩

/-! ### Lemmas towards the clone/construction structure theorem -/

theorem parsedBase_dblKey (k : Key) : parsedBase (dblKey k) = k := by
  simp [parsedBase, testUnder_dblKey]

theorem parsedDbl_dblKey (k : Key) : parsedDbl (dblKey k) = true := by
  simp [parsedDbl, testUnder_dblKey]

theorem parsedBase_normal (k : Key) (h : startsU k = false) : parsedBase k = k := by
  simp [parsedBase, testUnder_normal k h]

theorem parsedDbl_normal (k : Key) (h : startsU k = false) : parsedDbl k = false := by
  simp [parsedDbl, testUnder_normal k h]

theorem dblKey_inj (a b : Key) (h : dblKey a = dblKey b) : a = b := by
  simpa [dblKey] using h

theorem startsU_dblKey (k : Key) : startsU (dblKey k) = true := rfl

theorem alist_hasKey_append (a b : KVList) (k : Key) :
    alist_hasKey (a ++ b) k = (alist_hasKey a k || alist_hasKey b k) := by
  induction a with
  | nil => simp [alist_hasKey]
  | cons p t ih => simp [alist_hasKey, ih, Bool.or_assoc]

theorem alist_get_append (a b : KVList) (k : Key) :
    alist_get (a ++ b) k =
      match alist_get a k with
      | some v => some v
      | none => alist_get b k := by
  induction a with
  | nil => simp [alist_get]
  | cons p t ih =>
      obtain ⟨x, y⟩ := p
      by_cases h : x = k <;> simp [alist_get, h, ih]

theorem alist_get_mapVal (l : KVList) (f : PyVal → PyVal) (k : Key) :
    alist_get (l.map (fun p => (p.1, f p.2))) k = (alist_get l k).map f := by
  induction l with
  | nil => rfl
  | cons p t ih =>
      obtain ⟨x, y⟩ := p
      by_cases h : x = k <;> simp [alist_get, h, ih]

theorem alist_get_filterKey (l : KVList) (q : Key → Prop) [DecidablePred q] (k : Key) :
    alist_get (l.filter (fun p => q p.1)) k =
      if q k then alist_get l k else none := by
  induction l with
  | nil => simp [alist_get]
  | cons p t ih =>
      obtain ⟨x, y⟩ := p
      rw [List.filter_cons]
      by_cases hq : q x
      · by_cases h : x = k
        · subst h
          simp [alist_get, hq]
        · simp [alist_get, hq, h, ih]
      · by_cases h : x = k
        · subst h
          simp [alist_get, hq, ih]
        · simp [alist_get, hq, h, ih]

theorem dictUpdate_nil (d : KVList) : dictUpdate d [] = d := rfl

theorem dictUpdate_fresh (m d : KVList)
    (hnd : (m.map (·.1)).Nodup)
    (hfd : ∀ j ∈ m.map (·.1), alist_hasKey d j = false) :
    dictUpdate d m = d ++ m := by
  induction m generalizing d with
  | nil => simp [dictUpdate]
  | cons p t ih =>
      obtain ⟨x, y⟩ := p
      have hx : alist_hasKey d x = false := hfd x (by simp)
      have hstep : dictUpdate d ((x, y) :: t) = dictUpdate (d ++ [(x, y)]) t := by
        simp [dictUpdate, alist_set_of_not_hasKey d x y hx]
      rw [hstep, ih]
      · simp
      · exact hnd.of_cons
      · intro j hj
        rw [alist_hasKey_append]
        have h1 : alist_hasKey d j = false := hfd j (by simp [hj])
        have h2 : alist_hasKey [(x, y)] j = false := by
          have : j ≠ x := by
            simp only [List.map_cons, List.nodup_cons] at hnd
            exact fun hc => hnd.1 (hc ▸ hj)
          simp only [alist_hasKey, Bool.or_eq_false_iff, decide_eq_false_iff_not]
          exact ⟨fun hc => this hc.symm, trivial⟩
        rw [h1, h2]
        rfl

theorem initStep_fresh (acc : ROdict) (p : Key × PyVal)
    (hd : alist_hasKey acc._dict (parsedBase p.1) = false)
    (hp : parsedBase p.1 ∉ acc._protected) :
    initStep acc p =
      { _dict := acc._dict ++ [(parsedBase p.1, val_copy p.2)],
        _protected := acc._protected ++
          (if parsedDbl p.1 then [parsedBase p.1] else []) } := by
  unfold initStep
  cases ht : testUnder p.1 with
  | none =>
      have hb : parsedBase p.1 = p.1 := by simp [parsedBase, ht]
      have hdb : parsedDbl p.1 = false := by simp [parsedDbl, ht]
      rw [hb] at hd
      simp [alist_set_of_not_hasKey _ _ _ hd, hb, hdb]
  | some kd =>
      obtain ⟨k, dbl⟩ := kd
      have hb : parsedBase p.1 = k := by simp [parsedBase, ht]
      have hdb : parsedDbl p.1 = dbl := by simp [parsedDbl, ht]
      rw [hb] at hd hp
      unfold itemChangeExistingAsUnder
      cases dbl with
      | true =>
          simp [alist_set_of_not_hasKey _ _ _ hd, pset_add_fresh _ _ hp, hb, hdb]
      | false =>
          simp [alist_set_of_not_hasKey _ _ _ hd, pset_discard_fresh _ _ hp, hb, hdb]

theorem initFoldl_fresh (l : KVList) : ∀ (acc : ROdict),
    (l.map (fun p => parsedBase p.1)).Nodup →
    (∀ j ∈ l.map (fun p => parsedBase p.1), alist_hasKey acc._dict j = false) →
    (∀ j ∈ l.map (fun p => parsedBase p.1), j ∉ acc._protected) →
    l.foldl initStep acc =
      { _dict := acc._dict ++ l.map (fun p => (parsedBase p.1, val_copy p.2)),
        _protected := acc._protected ++
          (l.filter (fun p => parsedDbl p.1)).map (fun p => parsedBase p.1) } := by
  induction l with
  | nil =>
      intro acc _ _ _
      simp
  | cons p t ih =>
      intro acc hnd hfd hfp
      have hd := hfd (parsedBase p.1) (by simp)
      have hp := hfp (parsedBase p.1) (by simp)
      have hnotibase : ∀ j ∈ t.map (fun p => parsedBase p.1), j ≠ parsedBase p.1 := by
        intro j hj
        simp only [List.map_cons, List.nodup_cons] at hnd
        exact fun hc => hnd.1 (hc ▸ hj)
      have hfd2 : ∀ j ∈ t.map (fun p => parsedBase p.1),
          alist_hasKey (acc._dict ++ [(parsedBase p.1, val_copy p.2)]) j = false := by
        intro j hj
        rw [alist_hasKey_append]
        have h1 : alist_hasKey acc._dict j = false := hfd j (by simp [hj])
        have h2 : alist_hasKey [(parsedBase p.1, val_copy p.2)] j = false := by
          simp only [alist_hasKey, Bool.or_eq_false_iff, decide_eq_false_iff_not]
          exact ⟨fun hc => hnotibase j hj hc.symm, trivial⟩
        rw [h1, h2]
        rfl
      have hfp2 : ∀ j ∈ t.map (fun p => parsedBase p.1),
          j ∉ acc._protected ++ (if parsedDbl p.1 then [parsedBase p.1] else []) := by
        intro j hj hmem
        rcases List.mem_append.1 hmem with hm | hm
        · exact hfp j (by simp [hj]) hm
        · cases hdb : parsedDbl p.1 with
          | true =>
              rw [hdb] at hm
              simp at hm
              exact hnotibase j hj hm
          | false =>
              rw [hdb] at hm
              simp at hm
      rw [List.foldl_cons, initStep_fresh acc p hd hp,
        ih _ hnd.of_cons hfd2 hfp2]
      by_cases hdb : parsedDbl p.1 = true
      · simp [List.filter_cons, hdb, List.append_assoc]
      · rw [Bool.not_eq_true] at hdb
        simp [List.filter_cons, hdb, List.append_assoc]

theorem dblKey_injective : Function.Injective dblKey := by
  intro a b h
  simpa [dblKey] using h

theorem keys_filter_nodup (l : KVList) (q : Key × PyVal → Bool)
    (h : (l.map (·.1)).Nodup) : ((l.filter q).map (·.1)).Nodup :=
  List.Nodup.sublist ((List.filter_sublist l).map _) h

theorem protPart_keys (s : ROdict) :
    (protPart s).map (·.1) =
      ((s._dict.filter (fun p => p.1 ∈ s._protected)).map (·.1)).map dblKey := by
  unfold protPart
  simp [List.map_map, Function.comp]

theorem mem_unprotPart (s : ROdict) (p : Key × PyVal) (h : p ∈ unprotPart s) :
    p ∈ s._dict ∧ p.1 ∉ s._protected := by
  have hf := List.mem_filter.1 h
  exact ⟨hf.1, by simpa using hf.2⟩

theorem mem_protPart (s : ROdict) (q : Key × PyVal) (h : q ∈ protPart s) :
    ∃ p ∈ s._dict, p.1 ∈ s._protected ∧ q = (dblKey p.1, p.2) := by
  unfold protPart at h
  rcases List.mem_map.1 h with ⟨p, hp, rfl⟩
  have hf := List.mem_filter.1 hp
  exact ⟨p, hf.1, by simpa using hf.2, rfl⟩

theorem toInitdict_rodict (s : ROdict)
    (hnd : (s._dict.map (·.1)).Nodup)
    (hun : ∀ p ∈ s._dict, p.1 ∉ s._protected → startsU p.1 = false) :
    toInitdict (Source.rodict s) = protPart s ++ unprotPart s := by
  have hPnodup : ((protPart s).map (·.1)).Nodup := by
    rw [protPart_keys]
    exact (keys_filter_nodup _ _ hnd).map dblKey_injective
  have hUnodup : ((unprotPart s).map (·.1)).Nodup := keys_filter_nodup _ _ hnd
  have h1 : dictUpdate [] (protPart s) = protPart s := by
    rw [dictUpdate_fresh (protPart s) [] hPnodup (fun j _ => rfl)]
    simp
  have hfreshU : ∀ j ∈ (unprotPart s).map (·.1), alist_hasKey (protPart s) j = false := by
    intro j hj
    rcases List.mem_map.1 hj with ⟨p, hp, rfl⟩
    obtain ⟨hps, hnp⟩ := mem_unprotPart s p hp
    have hsf : startsU p.1 = false := hun p hps hnp
    by_contra hc
    rw [Bool.not_eq_false] at hc
    have hmm : p.1 ∈ (protPart s).map (·.1) := (alist_hasKey_iff_mem _ _).1 hc
    rw [protPart_keys] at hmm
    rcases List.mem_map.1 hmm with ⟨x, _, hx⟩
    rw [← hx, startsU_dblKey] at hsf
    exact Bool.noConfusion hsf
  show dictUpdate (dictUpdate [] (protPart s)) (unprotPart s) = _
  rw [h1, dictUpdate_fresh (unprotPart s) (protPart s) hUnodup hfreshU]

theorem clone_struct (s : ROdict) (h : RInv s) :
    (ROdict.clone s)._dict =
      (s._dict.filter (fun p => p.1 ∈ s._protected)).map (fun p => (p.1, val_copy p.2)) ++
      (s._dict.filter (fun p => p.1 ∉ s._protected)).map (fun p => (p.1, val_copy p.2)) ∧
    (ROdict.clone s)._protected =
      (s._dict.filter (fun p => p.1 ∈ s._protected)).map (·.1) := by
  obtain ⟨hnd, hsub, hun, hvs⟩ := h
  have hti := toInitdict_rodict s hnd hun
  have hPmapBase : (protPart s).map (fun p => parsedBase p.1) =
      (s._dict.filter (fun p => p.1 ∈ s._protected)).map (·.1) := by
    unfold protPart
    rw [List.map_map]
    apply List.map_congr_left
    intro p hp
    simp [Function.comp, parsedBase_dblKey]
  have hUmapBase : (unprotPart s).map (fun p => parsedBase p.1) =
      (s._dict.filter (fun p => p.1 ∉ s._protected)).map (·.1) := by
    apply List.map_congr_left
    intro p hp
    obtain ⟨hps, hnp⟩ := mem_unprotPart s p hp
    exact parsedBase_normal _ (hun p hps hnp)
  have hPbase_nodup : ((s._dict.filter (fun p => p.1 ∈ s._protected)).map (·.1)).Nodup :=
    keys_filter_nodup _ _ hnd
  have hUbase_nodup : ((s._dict.filter (fun p => p.1 ∉ s._protected)).map (·.1)).Nodup :=
    keys_filter_nodup _ _ hnd
  have hdisj : ∀ j ∈ (s._dict.filter (fun p => p.1 ∈ s._protected)).map (·.1),
      j ∉ (s._dict.filter (fun p => p.1 ∉ s._protected)).map (·.1) := by
    intro j hjP hjU
    rcases List.mem_map.1 hjP with ⟨p, hp, rfl⟩
    rcases List.mem_map.1 hjU with ⟨q, hq, hq1⟩
    have hpf : p.1 ∈ s._protected := by simpa using (List.mem_filter.1 hp).2
    have hqf : q.1 ∉ s._protected := by simpa using (List.mem_filter.1 hq).2
    exact hqf (hq1 ▸ hpf)
  have hbases : (protPart s ++ unprotPart s).map (fun p => parsedBase p.1) =
      (s._dict.filter (fun p => p.1 ∈ s._protected)).map (·.1) ++
      (s._dict.filter (fun p => p.1 ∉ s._protected)).map (·.1) := by
    rw [List.map_append, hPmapBase, hUmapBase]
  have hbases_nodup : ((protPart s ++ unprotPart s).map (fun p => parsedBase p.1)).Nodup := by
    rw [hbases]
    exact List.Nodup.append hPbase_nodup hUbase_nodup hdisj
  have hABkeys_nodup : ((protPart s ++ unprotPart s).map (·.1)).Nodup := by
    rw [List.map_append]
    refine List.Nodup.append ?_ (keys_filter_nodup _ _ hnd) ?_
    · rw [protPart_keys]
      exact (keys_filter_nodup _ _ hnd).map dblKey_injective
    · intro j hjP hjU
      rw [protPart_keys] at hjP
      rcases List.mem_map.1 hjP with ⟨x, _, rfl⟩
      rcases List.mem_map.1 hjU with ⟨q, hq, hq1⟩
      obtain ⟨hqs, hqnp⟩ := mem_unprotPart s q hq
      have hsf : startsU q.1 = false := hun q hqs hqnp
      rw [hq1, startsU_dblKey] at hsf
      exact Bool.noConfusion hsf
  have hmerge : dictUpdate [] (protPart s ++ unprotPart s) = protPart s ++ unprotPart s := by
    rw [dictUpdate_fresh (protPart s ++ unprotPart s) [] hABkeys_nodup (fun j _ => rfl)]
    simp
  have hclone : ROdict.clone s = initFromDict (protPart s ++ unprotPart s) := by
    show initFromDict (dictUpdate (dictUpdate
      (dictUpdate [] (toInitdict (Source.rodict s))) []) []) = _
    rw [dictUpdate_nil, dictUpdate_nil, hti, hmerge]
  rw [hclone]
  unfold initFromDict
  rw [initFoldl_fresh _ ({ _dict := [], _protected := [] } : ROdict) hbases_nodup
    (fun j _ => rfl) (fun j _ hm => (List.not_mem_nil j) hm)]
  constructor
  · show ([] : KVList) ++ _ = _
    rw [List.nil_append, List.map_append]
    congr 1
    · unfold protPart
      rw [List.map_map]
      apply List.map_congr_left
      intro p hp
      simp [Function.comp, parsedBase_dblKey]
    · apply List.map_congr_left
      intro p hp
      obtain ⟨hps, hnp⟩ := mem_unprotPart s p hp
      have hb := parsedBase_normal _ (hun p hps hnp)
      simp [hb]
  · show ([] : List Key) ++ _ = _
    rw [List.nil_append, List.filter_append]
    have hfA : (protPart s).filter (fun p => parsedDbl p.1) = protPart s := by
      rw [List.filter_eq_self]
      intro q hq
      rcases mem_protPart s q hq with ⟨p, _, _, rfl⟩
      simp [parsedDbl_dblKey]
    have hfB : (unprotPart s).filter (fun p => parsedDbl p.1) = [] := by
      rw [List.filter_eq_nil_iff]
      intro q hq
      obtain ⟨hqs, hqnp⟩ := mem_unprotPart s q hq
      simp [parsedDbl_normal _ (hun q hqs hqnp)]
    rw [hfA, hfB, List.append_nil, hPmapBase]

theorem getitem_eq_under (s : ROdict) (key b : Key) (d : Bool)
    (ht : testUnder key = some (b, d)) :
    getitem s key =
      match alist_get s._dict b with
      | some v => Except.ok v
      | none => Except.error (ROerror.keyNotFound b) := by
  unfold getitem
  rw [ht]

theorem getitem_eq_normal (s : ROdict) (key : Key)
    (ht : testUnder key = none) :
    getitem s key =
      match alist_get s._dict key with
      | some v => Except.ok (val_copy v)
      | none => Except.error (ROerror.keyNotFound key) := by
  unfold getitem
  rw [ht]

theorem clone_get (s : ROdict) (h : RInv s) (k : Key) :
    alist_get (ROdict.clone s)._dict k = (alist_get s._dict k).map val_copy := by
  obtain ⟨hdict, hprot⟩ := clone_struct s h
  rw [hdict, alist_get_append]
  have hA : alist_get ((s._dict.filter (fun p => p.1 ∈ s._protected)).map
      (fun p => (p.1, val_copy p.2))) k =
      if k ∈ s._protected then (alist_get s._dict k).map val_copy else none := by
    rw [alist_get_mapVal,
      alist_get_filterKey s._dict (fun x => x ∈ s._protected) k]
    by_cases hp : k ∈ s._protected <;> simp [hp]
  have hB : alist_get ((s._dict.filter (fun p => p.1 ∉ s._protected)).map
      (fun p => (p.1, val_copy p.2))) k =
      if k ∉ s._protected then (alist_get s._dict k).map val_copy else none := by
    rw [alist_get_mapVal,
      alist_get_filterKey s._dict (fun x => x ∉ s._protected) k]
    by_cases hp : k ∈ s._protected <;> simp [hp]
  rw [hA, hB]
  by_cases hp : k ∈ s._protected
  · simp only [hp, if_true, if_neg (fun hc : ¬ k ∈ s._protected => hc hp)]
    cases (alist_get s._dict k).map val_copy <;> simp
  · simp only [hp, if_false, if_pos hp]
    simp

theorem clone_protected (s : ROdict) (h : RInv s) (k : Key) :
    k ∈ (ROdict.clone s)._protected ↔ k ∈ s._protected := by
  obtain ⟨hdict, hprot⟩ := clone_struct s h
  rw [hprot]
  constructor
  · intro hm
    rcases List.mem_map.1 hm with ⟨p, hp, rfl⟩
    simpa using (List.mem_filter.1 hp).2
  · intro hm
    have hk : k ∈ s._dict.map (·.1) := h.2.1 k hm
    rcases List.mem_map.1 hk with ⟨p, hp, rfl⟩
    exact List.mem_map.2 ⟨p, List.mem_filter.2 ⟨hp, by simpa using hm⟩, rfl⟩

theorem clone_getitem_error (s : ROdict) (h : RInv s) (key : Key) (e : ROerror)
    (he : getitem s key = Except.error e) :
    getitem (ROdict.clone s) key = Except.error e := by
  cases ht : testUnder key with
  | some kd =>
      obtain ⟨b, d⟩ := kd
      rw [getitem_eq_under s key b d ht] at he
      rw [getitem_eq_under (ROdict.clone s) key b d ht, clone_get s h b]
      cases hg : alist_get s._dict b with
      | some v =>
          rw [hg] at he
          simp at he
      | none =>
          rw [hg] at he
          simpa using he
  | none =>
      rw [getitem_eq_normal s key ht] at he
      rw [getitem_eq_normal (ROdict.clone s) key ht, clone_get s h key]
      cases hg : alist_get s._dict key with
      | some v =>
          rw [hg] at he
          simp at he
      | none =>
          rw [hg] at he
          simpa using he

theorem clone_getitem_ok (s : ROdict) (h : RInv s) (key : Key) (v : PyVal)
    (hv : getitem s key = Except.ok v) :
    ∃ v2, getitem (ROdict.clone s) key = Except.ok v2 ∧ pyEq v2 v = true := by
  cases ht : testUnder key with
  | some kd =>
      obtain ⟨b, d⟩ := kd
      rw [getitem_eq_under s key b d ht] at hv
      rw [getitem_eq_under (ROdict.clone s) key b d ht, clone_get s h b]
      cases hg : alist_get s._dict b with
      | some w =>
          rw [hg] at hv
          simp at hv
          subst hv
          exact ⟨val_copy w, by simp [hg],
            h.2.2.2 (b, w) (mem_of_alist_get_some _ _ _ hg)⟩
      | none =>
          rw [hg] at hv
          simp at hv
  | none =>
      rw [getitem_eq_normal s key ht] at hv
      rw [getitem_eq_normal (ROdict.clone s) key ht, clone_get s h key]
      cases hg : alist_get s._dict key with
      | some w =>
          rw [hg] at hv
          simp at hv
          refine ⟨val_copy (val_copy w), by simp [hg], ?_⟩
          rw [← hv]
          exact pyEq_val_copy_twice w
      | none =>
          rw [hg] at hv
          simp at hv

theorem plainGo_ok_props (s : ROdict) (l m : KVList)
    (h : plainGo s l = Except.ok m) :
    m.map (·.1) = l.map (·.1) ∧ ∀ p ∈ m, getitem s p.1 = Except.ok p.2 := by
  induction l generalizing m with
  | nil =>
      simp [plainGo] at h
      subst h
      simp
  | cons q rest ih =>
      unfold plainGo at h
      cases hq : getitem s q.1 with
      | error e =>
          rw [hq] at h
          simp at h
      | ok v =>
          rw [hq] at h
          cases hr : plainGo s rest with
          | error e =>
              rw [hr] at h
              simp at h
          | ok r =>
              rw [hr] at h
              simp at h
              subst h
              obtain ⟨hk, hmem⟩ := ih r hr
              refine ⟨by simp [hk], ?_⟩
              intro p hp
              rcases List.mem_cons.1 hp with rfl | hp
              · exact hq
              · exact hmem p hp

theorem plainGo_ok_of_all (s : ROdict) (l : KVList)
    (h : ∀ p ∈ l, ∃ v, getitem s p.1 = Except.ok v) :
    ∃ m, plainGo s l = Except.ok m := by
  induction l with
  | nil => exact ⟨[], rfl⟩
  | cons q rest ih =>
      obtain ⟨v, hv⟩ := h q (List.mem_cons_self q rest)
      obtain ⟨r, hr⟩ := ih (fun p hp => h p (List.mem_cons_of_mem q hp))
      exact ⟨(q.1, v) :: r, by simp [plainGo, hv, hr]⟩

/-- C9: when an `ROdict` is used as the construction source (as `clone()`
does), the constructed instance's key iteration order lists all of the
source's protected keys first, in the source's insertion order, followed by
all unprotected keys in the source's insertion order — not the source's
original interleaved order. -/
theorem C9_clone_reorders_keys (s : ROdict) (h : RInv s) :
    (ROdict.clone s).keys =
      (s._dict.filter (fun p => p.1 ∈ s._protected)).map (·.1) ++
      (s._dict.filter (fun p => p.1 ∉ s._protected)).map (·.1) := by
  obtain ⟨hdict, _⟩ := clone_struct s h
  show (ROdict.clone s)._dict.map (·.1) = _
  rw [hdict, List.map_append, List.map_map, List.map_map]
  rfl

theorem C9_witness :
    RInv sampleMix ∧
    ((ROdict.clone sampleMix).keys =
      (sampleMix._dict.filter (fun p => p.1 ∈ sampleMix._protected)).map (·.1) ++
      (sampleMix._dict.filter (fun p => p.1 ∉ sampleMix._protected)).map (·.1)) ∧
    sampleMix.keys = [['b'], ['a'], ['c'], ['d']] ∧
    (ROdict.clone sampleMix).keys = [['a'], ['d'], ['b'], ['c']] :=
  ⟨by decide, C9_clone_reorders_keys sampleMix (by decide), by decide, by decide⟩

/-- C2: for any instance (any state satisfying the reachability invariant
`RInv`) whose `dict()` snapshot succeeds, `copy()` produces an instance whose
`dict()` snapshot is equal as a Python dict (same keys, `==`-equal values)
and whose protected-key set is the same. -/
theorem C2_clone_roundtrip (s : ROdict) (h : RInv s) (m : KVList)
    (hm : toPlainMapping s = Except.ok m) :
    (∃ m2, toPlainMapping (ROdict.clone s) = Except.ok m2 ∧
      ∀ q, optPyEq (alist_get m2 q) (alist_get m q)) ∧
    (∀ q, q ∈ (ROdict.clone s)._protected ↔ q ∈ s._protected) := by
  obtain ⟨hkeys, hvals⟩ := plainGo_ok_props s s._dict m hm
  have hallk : ∀ q ∈ s._dict.map (·.1),
      ∃ v, getitem s q = Except.ok v ∧ alist_get m q = some v := by
    intro q hq
    rw [← hkeys] at hq
    have hsome : (alist_get m q).isSome = true := (alist_get_isSome_iff m q).2 hq
    cases hg : alist_get m q with
    | none =>
        rw [hg] at hsome
        simp at hsome
    | some v => exact ⟨v, hvals (q, v) (mem_of_alist_get_some m q v hg), rfl⟩
  have hckeys : ∀ q, q ∈ (ROdict.clone s)._dict.map (·.1) ↔ q ∈ s._dict.map (·.1) := by
    intro q
    rw [← alist_get_isSome_iff, ← alist_get_isSome_iff, clone_get s h q]
    cases alist_get s._dict q <;> simp
  have hallc : ∀ p ∈ (ROdict.clone s)._dict,
      ∃ v, getitem (ROdict.clone s) p.1 = Except.ok v := by
    intro p hp
    have hq : p.1 ∈ s._dict.map (·.1) := (hckeys p.1).1 (List.mem_map.2 ⟨p, hp, rfl⟩)
    obtain ⟨v, hv, _⟩ := hallk p.1 hq
    obtain ⟨v2, hv2, _⟩ := clone_getitem_ok s h p.1 v hv
    exact ⟨v2, hv2⟩
  obtain ⟨m2, hm2⟩ := plainGo_ok_of_all (ROdict.clone s) (ROdict.clone s)._dict hallc
  obtain ⟨hkeys2, hvals2⟩ := plainGo_ok_props (ROdict.clone s) (ROdict.clone s)._dict m2 hm2
  refine ⟨⟨m2, hm2, ?_⟩, fun q => clone_protected s h q⟩
  intro q
  by_cases hq : q ∈ s._dict.map (·.1)
  · obtain ⟨v, hv, hgv⟩ := hallk q hq
    have hq2 : q ∈ m2.map (·.1) := by
      rw [hkeys2]
      exact (hckeys q).2 hq
    have hsome2 : (alist_get m2 q).isSome = true := (alist_get_isSome_iff m2 q).2 hq2
    cases hg2 : alist_get m2 q with
    | none =>
        rw [hg2] at hsome2
        simp at hsome2
    | some v2 =>
        have hv2 : getitem (ROdict.clone s) q = Except.ok v2 :=
          hvals2 (q, v2) (mem_of_alist_get_some m2 q v2 hg2)
        obtain ⟨v2x, hv2x, hpy⟩ := clone_getitem_ok s h q v hv
        have hvv : v2x = v2 := by
          rw [hv2x] at hv2
          exact Except.ok.inj hv2
        rw [hgv]
        show pyEq v2 v = true
        rw [← hvv]
        exact hpy
  · have hgm : alist_get m q = none := by
      cases hg : alist_get m q with
      | none => rfl
      | some w =>
          have hmem : q ∈ m.map (·.1) := (alist_get_isSome_iff m q).1 (by rw [hg]; rfl)
          rw [hkeys] at hmem
          exact absurd hmem hq
    have hgm2 : alist_get m2 q = none := by
      cases hg : alist_get m2 q with
      | none => rfl
      | some w =>
          have hmem : q ∈ m2.map (·.1) := (alist_get_isSome_iff m2 q).1 (by rw [hg]; rfl)
          rw [hkeys2] at hmem
          exact absurd ((hckeys q).1 hmem) hq
    rw [hgm, hgm2]
    trivial

theorem C2_witness :
    RInv sampleMix ∧
    toPlainMapping sampleMix = Except.ok
      [(['b'], PyVal.copyable 2 2), (['a'], PyVal.plain 1),
       (['c'], PyVal.plain 3), (['d'], PyVal.copyable 4 9)] ∧
    ((∃ m2, toPlainMapping (ROdict.clone sampleMix) = Except.ok m2 ∧
        ∀ q, optPyEq (alist_get m2 q)
          (alist_get [(['b'], PyVal.copyable 2 2), (['a'], PyVal.plain 1),
            (['c'], PyVal.plain 3), (['d'], PyVal.copyable 4 9)] q)) ∧
      (∀ q, q ∈ (ROdict.clone sampleMix)._protected ↔ q ∈ sampleMix._protected)) :=
  ⟨by decide, by decide,
    C2_clone_roundtrip sampleMix (by decide) _ (by decide)⟩
